import Mathlib

/-!
# Verification of the wun-engine market evaluation core

Shallow embedding of the market evaluation engine: odds conversions and EV
(`ev.py`, `pricing.py`, `engine/simulation.py`), tier classification
(`tiers.py`), deduplication (`engine/tiles.py`), simulation cover counting
(`simulation.py`, `engine/simulation.py`, `engine/sim_core.py`), the TTL
cache (`cache.py`) and the two normalizers (`normalizer.py` in both source
trees).  Python floats are embedded as exact rationals `ℚ`; `None` becomes
`Option`; the non-seeded random source becomes an injectable stream of
draws, following the spec's requirement that the simulator accept an
injectable random source.
-/

namespace WunEngine

/-! ## EV helpers, from `src/wun-engine/ev.py` -/

/-- `implied_prob_from_decimal` (src/wun-engine/ev.py lines 10-13):
returns `0.0` for `decimal_odds ≤ 1.0`, else `1/decimal_odds`. -/
def implied_prob_from_decimal (decimal_odds : ℚ) : ℚ :=
  if decimal_odds ≤ 1 then 0 else 1 / decimal_odds

/-- `ev_from_prob` (src/wun-engine/ev.py lines 16-23):
returns `0.0` for `decimal_odds ≤ 1.0`, else
`true_prob * (decimal_odds - 1) * stake - (1 - true_prob) * stake`. -/
def ev_from_prob (decimal_odds true_prob stake : ℚ) : ℚ :=
  if decimal_odds ≤ 1 then 0
  else true_prob * (decimal_odds - 1) * stake - (1 - true_prob) * stake

/-! ## Tier classifier, from `src/wun-engine/tiers.py` -/

/-- `assign_tier` (src/wun-engine/tiers.py lines 19-33).  Thresholds:
Dime at `ev ≥ 0.10 ∧ cover_prob ≥ 0.60`, Nickel at
`ev ≥ 0.05 ∧ cover_prob ≥ 0.55`, else Standard.  The `market_key`
argument is accepted and unused, as in the source. -/
def assign_tier (ev cover_prob : ℚ) (market_key : String) : String :=
  if 1/10 ≤ ev ∧ 6/10 ≤ cover_prob then "Dime Plays"
  else if 1/20 ≤ ev ∧ 11/20 ≤ cover_prob then "Nickel Plays"
  else "Standard Plays"

/-- `tier_rank` (src/wun-engine/tiers.py lines 45-54). -/
def tier_rank (tier : String) : ℤ :=
  if tier = "Dime Plays" then 3
  else if tier = "Nickel Plays" then 2
  else 1

/-! ## American/decimal conversions, from `src/ev.py` and
`src/wun-engine/pricing.py` -/

/-- `american_to_decimal` (src/ev.py lines 10-21): `None` passes through,
`odds > 0 ↦ 1 + odds/100`, `odds < 0 ↦ 1 + 100/|odds|`, `0 ↦ 2.0`. -/
def american_to_decimal (odds : Option ℚ) : Option ℚ :=
  match odds with
  | none => none
  | some o =>
    if 0 < o then some (1 + o / 100)
    else if o < 0 then some (1 + 100 / |o|)
    else some 2

/-- `american_to_decimal` (src/wun-engine/pricing.py lines 32-43), which
takes an `int` and maps `0 ↦ 0.0`, `odds > 0 ↦ 1 + odds/100`,
`odds < 0 ↦ 1 + 100/|odds|`. -/
def pricing_american_to_decimal (american : ℤ) : ℚ :=
  if american = 0 then 0
  else if 0 < american then 1 + (american : ℚ) / 100
  else 1 + 100 / |(american : ℚ)|

/-! ## American-odds helpers, from `src/wun-engine/engine/simulation.py` -/

/-- `american_to_implied` (src/wun-engine/engine/simulation.py lines 8-25):
`0 ↦ 0.5`, `o > 0 ↦ 100/(o+100)`, `o < 0 ↦ (-o)/((-o)+100)`. -/
def american_to_implied (odds : ℚ) : ℚ :=
  if odds = 0 then 1/2
  else if 0 < odds then 100 / (odds + 100)
  else (-odds) / ((-odds) + 100)

/-- `ev_from_prob_and_odds` (src/wun-engine/engine/simulation.py lines
28-47): EV per unit stake from a true probability and American odds. -/
def ev_from_prob_and_odds (p odds : ℚ) : ℚ :=
  if odds = 0 then 0
  else
    (p * (if 0 < odds then odds / 100 else 100 / (-odds))) - (1 - p) * 1

/-- The moneyline / unknown-market fallback branch of
`best_line_for_straight_market` (src/wun-engine/engine/simulation.py lines
346-350): EV computed from the market's own implied probability. -/
def straight_fallback_ev (odds : ℚ) : ℚ :=
  ev_from_prob_and_odds (american_to_implied odds) odds

end WunEngine

namespace WunEngine

/-- Unfolding of `assign_tier` through `tier_rank`. -/
lemma tier_rank_assign (ev cover_prob : ℚ) (k : String) :
    tier_rank (assign_tier ev cover_prob k) =
      if 1/10 ≤ ev ∧ 6/10 ≤ cover_prob then 3
      else if 1/20 ≤ ev ∧ 11/20 ≤ cover_prob then 2
      else 1 := by
  unfold assign_tier tier_rank
  split_ifs with h1 h2 <;> simp_all

/-- C3: for decimal odds `d > 1` the computed EV per unit stake is
`p * (d - 1) - (1 - p)`; at `d = 1.91`, `p = 0.55` the EV is exactly
`0.0505` and `assign_tier` puts this pair in the middle tier
"Nickel Plays". -/
theorem C3_ev_formula_and_nickel_tier (p d : ℚ) :
    (1 < d → ev_from_prob d p 1 = p * (d - 1) - (1 - p)) ∧
    ev_from_prob (191/100) (11/20) 1 = 101/2000 ∧
    assign_tier (101/2000) (11/20) "player_points" = "Nickel Plays" := by
  refine ⟨fun hd => ?_, by norm_num [ev_from_prob], by norm_num [assign_tier]⟩
  rw [ev_from_prob, if_neg (by linarith)]
  ring

/-- Witness for C3 at `p = 1/2`, `d = 2`. -/
theorem C3_witness :
    ev_from_prob 2 (1/2) 1 = (1/2 : ℚ) * (2 - 1) - (1 - 1/2) := by
  have h := C3_ev_formula_and_nickel_tier (1/2) 2
  exact h.1 (by norm_num)

/-- C5 counterexample: `pricing.py`'s `american_to_decimal` maps American
odds `0` to `0.0`, not to the even-money value `2.0` the claim states. -/
theorem C5_counterexample_zero_odds :
    pricing_american_to_decimal 0 = 0 ∧ pricing_american_to_decimal 0 ≠ 2 := by
  constructor <;> norm_num [pricing_american_to_decimal]

/-- C5 (amended): both converters return `1 + a/100` for `a > 0` and
`1 + 100/|a|` for `a < 0`; at `a = 0`, `src/ev.py` returns `2.0` (even
money) while `src/wun-engine/pricing.py` returns `0.0`. -/
theorem C5_american_to_decimal_cases (a : ℤ) :
    (0 < a → pricing_american_to_decimal a = 1 + (a : ℚ) / 100 ∧
      american_to_decimal (some (a : ℚ)) = some (1 + (a : ℚ) / 100)) ∧
    (a < 0 → pricing_american_to_decimal a = 1 + 100 / |(a : ℚ)| ∧
      american_to_decimal (some (a : ℚ)) = some (1 + 100 / |(a : ℚ)|)) ∧
    (a = 0 → pricing_american_to_decimal a = 0 ∧
      american_to_decimal (some (a : ℚ)) = some 2) := by
  refine ⟨fun h => ?_, fun h => ?_, fun h => ?_⟩
  · have h0 : (0 : ℚ) < (a : ℚ) := by exact_mod_cast h
    constructor
    · rw [pricing_american_to_decimal, if_neg (by omega), if_pos h]
    · rw [american_to_decimal, if_pos h0]
  · have h0 : (a : ℚ) < 0 := by exact_mod_cast h
    constructor
    · rw [pricing_american_to_decimal, if_neg (by omega), if_neg (by omega)]
    · rw [american_to_decimal, if_neg (by linarith), if_pos h0]
  · subst h
    constructor
    · rw [pricing_american_to_decimal, if_pos rfl]
    · norm_num [american_to_decimal]

/-- Witness for C5 at `a = 150`, `a = -200` and `a = 0`. -/
theorem C5_american_to_decimal_witness :
    pricing_american_to_decimal 150 = 5/2 ∧
    pricing_american_to_decimal (-200) = 3/2 ∧
    pricing_american_to_decimal 0 = 0 ∧
    american_to_decimal (some 0) = some 2 := by
  have h1 := (C5_american_to_decimal_cases 150).1 (by norm_num)
  have h2 := (C5_american_to_decimal_cases (-200)).2.1 (by norm_num)
  have h3 := (C5_american_to_decimal_cases 0).2.2 rfl
  refine ⟨?_, ?_, by simpa using h3.1, by simpa using h3.2⟩
  · rw [h1.1]; norm_num
  · rw [h2.1]; norm_num

/-- C6: for decimal odds `d ≤ 1.0` both the implied-probability and the EV
functions return the zero sentinel (they are total functions, so nothing
is ever raised); for `d > 1.0` the implied probability is `1/d` and lies
in `(0, 1]`. -/
theorem C6_invalid_decimal_sentinels (d p s : ℚ) :
    (d ≤ 1 → implied_prob_from_decimal d = 0 ∧ ev_from_prob d p s = 0) ∧
    (1 < d → implied_prob_from_decimal d = 1 / d ∧
      0 < implied_prob_from_decimal d ∧ implied_prob_from_decimal d ≤ 1) := by
  constructor
  · intro h
    exact ⟨by rw [implied_prob_from_decimal, if_pos h],
           by rw [ev_from_prob, if_pos h]⟩
  · intro h
    have hd : ¬ d ≤ 1 := by linarith
    have h0 : (0 : ℚ) < d := by linarith
    refine ⟨by rw [implied_prob_from_decimal, if_neg hd], ?_, ?_⟩
    · rw [implied_prob_from_decimal, if_neg hd]
      positivity
    · rw [implied_prob_from_decimal, if_neg hd]
      rw [div_le_one h0]
      linarith

/-- Witness for C6 at `d = 1/2` (invalid) and `d = 2` (valid). -/
theorem C6_witness :
    implied_prob_from_decimal (1/2) = 0 ∧ ev_from_prob (1/2) (3/4) 1 = 0 ∧
    implied_prob_from_decimal 2 = 1/2 ∧ 0 < implied_prob_from_decimal 2 := by
  have h1 := (C6_invalid_decimal_sentinels (1/2) (3/4) 1).1 (by norm_num)
  have h2 := (C6_invalid_decimal_sentinels 2 0 1).2 (by norm_num)
  exact ⟨h1.1, h1.2, by rw [h2.1], h2.2.1⟩

/-- C8: tier assignment is monotone — raising EV and cover probability
never lowers the `tier_rank` of the assigned tier. -/
theorem C8_assign_tier_monotone (e1 c1 e2 c2 : ℚ) (k1 k2 : String)
    (he : e2 ≤ e1) (hc : c2 ≤ c1) :
    tier_rank (assign_tier e2 c2 k2) ≤ tier_rank (assign_tier e1 c1 k1) := by
  rw [tier_rank_assign, tier_rank_assign]
  have hP : 1/10 ≤ e2 ∧ 6/10 ≤ c2 → 1/10 ≤ e1 ∧ 6/10 ≤ c1 :=
    fun h => ⟨le_trans h.1 he, le_trans h.2 hc⟩
  have hQ : 1/20 ≤ e2 ∧ 11/20 ≤ c2 → 1/20 ≤ e1 ∧ 11/20 ≤ c1 :=
    fun h => ⟨le_trans h.1 he, le_trans h.2 hc⟩
  by_cases h2d : 1/10 ≤ e2 ∧ 6/10 ≤ c2
  · rw [if_pos h2d, if_pos (hP h2d)]
  · by_cases h2n : 1/20 ≤ e2 ∧ 11/20 ≤ c2
    · rw [if_neg h2d, if_pos h2n]
      by_cases h1d : 1/10 ≤ e1 ∧ 6/10 ≤ c1
      · rw [if_pos h1d]; norm_num
      · rw [if_neg h1d, if_pos (hQ h2n)]
    · rw [if_neg h2d, if_neg h2n]
      split_ifs <;> norm_num

/-- Witness for C8 at `(ev, cover) = (0.12, 0.65)` versus `(0.06, 0.56)`. -/
theorem C8_witness :
    tier_rank (assign_tier (6/100) (56/100) "a") ≤
      tier_rank (assign_tier (12/100) (65/100) "b") :=
  C8_assign_tier_monotone (12/100) (65/100) (6/100) (56/100) "b" "a"
    (by norm_num) (by norm_num)

/-- C10: for every nonzero American odds value, the EV computed from the
market's own implied probability is exactly `0`; hence the
moneyline/unknown fallback path reports EV `0` and is always classified
in the bottom tier ("Standard Plays"), never a positive-EV tier. -/
theorem C10_fallback_ev_zero (o : ℚ) (ho : o ≠ 0) (c : ℚ) (k : String) :
    ev_from_prob_and_odds (american_to_implied o) o = 0 ∧
    straight_fallback_ev o = 0 ∧
    assign_tier (straight_fallback_ev o) c k = "Standard Plays" := by
  have hev : ev_from_prob_and_odds (american_to_implied o) o = 0 := by
    rcases lt_or_gt_of_ne ho with hneg | hpos
    · have h1 : ¬ (0 : ℚ) < o := by linarith
      have hden : (-o) + 100 ≠ 0 := ne_of_gt (by linarith)
      rw [american_to_implied, if_neg ho, if_neg h1,
        ev_from_prob_and_odds, if_neg ho, if_neg h1]
      field_simp
      ring
    · have hden : o + 100 ≠ 0 := ne_of_gt (by linarith)
      rw [american_to_implied, if_neg ho, if_pos hpos,
        ev_from_prob_and_odds, if_neg ho, if_pos hpos]
      field_simp
      ring
  have hf : straight_fallback_ev o = 0 := hev
  refine ⟨hev, hf, ?_⟩
  rw [hf, assign_tier]
  norm_num

/-! ## TTL cache, from `src/cache.py`

The Python module keeps a process-global dict `_CACHE : key ↦ (expires,
value)` and reads the wall clock.  The embedding passes both explicitly:
the store is an association list with at most one entry per key (a dict
never holds duplicate keys) and `now` is the value `time()` would return.
`cache_get` misses on an absent key; on `now > expires` it deletes the
entry and misses; otherwise it returns the stored value.  `cache_set`
stores `(now + ttl, value)`. -/

/-- One store: keys to `(expires, value)` pairs, value type `α`. -/
abbrev CacheStore (α : Type) := List (String × (ℚ × α))

/-- Dict assignment `_CACHE[key] = entry`: replace the first entry with
this key in place, else append. -/
def storePut {α : Type} (key : String) (entry : ℚ × α) :
    CacheStore α → CacheStore α
  | [] => [(key, entry)]
  | (k, e) :: rest =>
    if k = key then (key, entry) :: rest else (k, e) :: storePut key entry rest

/-- Dict lookup `_CACHE.get(key)`. -/
def storeFind {α : Type} (key : String) : CacheStore α → Option (ℚ × α)
  | [] => none
  | (k, e) :: rest => if k = key then some e else storeFind key rest

/-- Dict deletion `del _CACHE[key]`. -/
def storeDel {α : Type} (key : String) : CacheStore α → CacheStore α
  | [] => []
  | (k, e) :: rest => if k = key then rest else (k, e) :: storeDel key rest

/-- `cache_get` (src/cache.py lines 6-14), with the clock explicit:
returns the hit value (or `none`) together with the store after the lazy
purge. -/
def cache_get {α : Type} (store : CacheStore α) (key : String) (now : ℚ) :
    Option α × CacheStore α :=
  match storeFind key store with
  | none => (none, store)
  | some (expires, value) =>
    if expires < now then (none, storeDel key store) else (some value, store)

/-- `cache_set` (src/cache.py lines 16-17), with the clock explicit. -/
def cache_set {α : Type} (store : CacheStore α) (key : String) (value : α)
    (ttl : ℚ) (now : ℚ) : CacheStore α :=
  storePut key (now + ttl, value) store

lemma storeFind_put {α : Type} (key : String) (entry : ℚ × α)
    (store : CacheStore α) :
    storeFind key (storePut key entry store) = some entry := by
  induction store with
  | nil => simp [storePut, storeFind]
  | cons hd rest ih =>
    obtain ⟨k, e⟩ := hd
    by_cases hk : k = key
    · simp [storePut, storeFind, hk]
    · simp [storePut, storeFind, hk, ih]

lemma storeFind_put_ne {α : Type} (key : String) (entry : ℚ × α)
    (store : CacheStore α) (k2 : String) (hk2 : k2 ≠ key) :
    storeFind k2 (storePut key entry store) = storeFind k2 store := by
  have hne : key ≠ k2 := fun h => hk2 h.symm
  induction store with
  | nil => simp [storePut, storeFind, hne]
  | cons hd rest ih =>
    obtain ⟨k, e⟩ := hd
    by_cases hk : k = key
    · subst hk
      simp [storePut, storeFind, hne]
    · simp only [storePut, if_neg hk]
      by_cases hkk : k = k2
      · simp [storeFind, hkk]
      · simp [storeFind, hkk, ih]

lemma storePut_nodup {α : Type} (key : String) (entry : ℚ × α)
    (store : CacheStore α) (h : (store.map Prod.fst).Nodup) :
    ((storePut key entry store).map Prod.fst).Nodup := by
  induction store with
  | nil => simp [storePut]
  | cons hd rest ih =>
    obtain ⟨k, e⟩ := hd
    simp only [List.map_cons, List.nodup_cons] at h
    by_cases hk : k = key
    · subst hk
      simpa [storePut, List.nodup_cons] using h
    · simp only [storePut, if_neg hk, List.map_cons, List.nodup_cons]
      refine ⟨?_, ih h.2⟩
      intro hmem
      rcases List.mem_map.1 hmem with ⟨⟨k3, e3⟩, hm3, hk3⟩
      have : (k3, e3) ∈ rest ∨ ((k3, e3) : String × (ℚ × α)) = (key, entry) := by
        clear ih h hmem
        induction rest with
        | nil => simpa [storePut] using hm3
        | cons hd2 rest2 ih2 =>
          obtain ⟨k4, e4⟩ := hd2
          by_cases hk4 : k4 = key
          · subst hk4
            simp only [storePut, if_pos rfl] at hm3
            rcases List.mem_cons.1 hm3 with h1 | h1
            · exact Or.inr h1
            · exact Or.inl (List.mem_cons_of_mem _ h1)
          · simp only [storePut, if_neg hk4] at hm3
            rcases List.mem_cons.1 hm3 with h1 | h1
            · exact Or.inl (List.mem_cons.2 (Or.inl h1))
            · rcases ih2 h1 with h2 | h2
              · exact Or.inl (List.mem_cons_of_mem _ h2)
              · exact Or.inr h2
      rcases this with hmem2 | heq
      · exact h.1 (List.mem_map.2 ⟨(k3, e3), hmem2, hk3⟩)
      · apply hk
        cases heq
        exact hk3.symm

lemma storeFind_del_self {α : Type} (key : String) (store : CacheStore α)
    (h : (store.map Prod.fst).Nodup) :
    storeFind key (storeDel key store) = none := by
  induction store with
  | nil => simp [storeDel, storeFind]
  | cons hd rest ih =>
    obtain ⟨k, e⟩ := hd
    simp only [List.map_cons, List.nodup_cons] at h
    by_cases hk : k = key
    · subst hk
      simp only [storeDel, if_pos rfl]
      clear ih
      induction rest with
      | nil => simp [storeFind]
      | cons hd2 rest2 ih2 =>
        obtain ⟨k4, e4⟩ := hd2
        simp only [List.map_cons, List.mem_cons, List.nodup_cons] at h
        have hk4 : k4 ≠ k := fun hx => h.1 (Or.inl hx.symm)
        simp only [storeFind, if_neg hk4]
        exact ih2 ⟨fun hx => h.1 (Or.inr hx), h.2.2⟩
    · simp only [storeDel, if_neg hk, storeFind, if_neg hk]
      exact ih h.2

/-- C7 counterexample: the claim quantifies over every ttl; at `ttl = -1`
a `get` performed immediately after the `set` (same clock reading) already
misses, so the claim as stated is false. -/
theorem C7_counterexample_negative_ttl :
    (cache_get (cache_set ([] : CacheStore ℕ) "plays:NBA" 7 (-1) 10)
      "plays:NBA" 10).1 = none := by
  norm_num [cache_get, cache_set, storePut, storeFind]

/-- C7 (amended, the claim restricted to nonnegative ttl): after
`set(k, v, ttl)` at time `now`, a `get` at any time `now2 ≤ now + ttl`
(in particular immediately, when `ttl ≥ 0`) returns `v`; a `get` at any
time `now2 > now + ttl` misses and removes the entry, so afterwards the
key is absent from the store (given the dict invariant that keys are
unique). -/
theorem C7_cache_ttl (α : Type) (store : CacheStore α) (key : String)
    (value : α) (ttl now now2 : ℚ)
    (hnodup : (store.map Prod.fst).Nodup) :
    (now2 ≤ now + ttl →
      cache_get (cache_set store key value ttl now) key now2 =
        (some value, cache_set store key value ttl now)) ∧
    (now + ttl < now2 →
      (cache_get (cache_set store key value ttl now) key now2).1 = none ∧
      storeFind key
        (cache_get (cache_set store key value ttl now) key now2).2 = none) := by
  have hfind : storeFind key (cache_set store key value ttl now) =
      some (now + ttl, value) := storeFind_put key (now + ttl, value) store
  constructor
  · intro hle
    rw [cache_get, hfind]
    simp only [if_neg (not_lt.2 hle)]
  · intro hgt
    rw [cache_get, hfind]
    simp only [if_pos hgt]
    refine ⟨by trivial, ?_⟩
    exact storeFind_del_self key _
      (storePut_nodup key (now + ttl, value) store hnodup)

/-- Witness for C7: store `7` under a key with `ttl = 300` at time `1000`;
a read at time `1000` hits, a read at time `1301` misses and leaves the
key absent. -/
theorem C7_witness :
    (cache_get (cache_set ([] : CacheStore ℕ) "plays:NFL" 7 300 1000)
        "plays:NFL" 1000).1 = some 7 ∧
    (cache_get (cache_set ([] : CacheStore ℕ) "plays:NFL" 7 300 1000)
        "plays:NFL" 1301).1 = none := by
  have h := C7_cache_ttl ℕ [] "plays:NFL" 7 300 1000 1000
    (by simp only [List.map_nil]; exact List.nodup_nil)
  have h2 := C7_cache_ttl ℕ [] "plays:NFL" 7 300 1000 1301
    (by simp only [List.map_nil]; exact List.nodup_nil)
  refine ⟨?_, (h2.2 (by norm_num)).1⟩
  rw [h.1 (by norm_num)]

/-! ## Cover counting

Two implementations count covering samples.  `simulate_prop_ev`
(src/wun-engine/engine/simulation.py lines 296-310) counts strictly:
`s > line` for direction "over", `s < line` otherwise, dividing by the
number of samples (`0.5` when there are none).  `simulate_single_prop`
(src/wun-engine/simulation.py lines 100-111) counts `sample >= line` as an
over hit and sets the under probability to one minus the over
probability. -/

/-- The `covers` count of `simulate_prop_ev`: strict on both sides. -/
def prop_cover_count (stats : List ℚ) (line : ℚ) (direction : String) : ℕ :=
  if direction = "over" then stats.countP (fun s => decide (line < s))
  else stats.countP (fun s => decide (s < line))

/-- The `p_cover` of `simulate_prop_ev`: `covers / total`, `0.5` on an
empty sample list. -/
def prop_p_cover (stats : List ℚ) (line : ℚ) (direction : String) : ℚ :=
  if stats.length = 0 then 1/2
  else (prop_cover_count stats line direction : ℚ) / (stats.length : ℚ)

/-- The `over_hits` count of `simulate_single_prop`: `sample >= line`. -/
def single_prop_over_hits (samples : List ℚ) (line : ℚ) : ℕ :=
  samples.countP (fun s => decide (line ≤ s))

/-- `cover_prob_over` of `simulate_single_prop`. -/
def single_prop_cover_over (samples : List ℚ) (line : ℚ) : ℚ :=
  (single_prop_over_hits samples line : ℚ) / (samples.length : ℚ)

/-- `cover_prob_under` of `simulate_single_prop`. -/
def single_prop_cover_under (samples : List ℚ) (line : ℚ) : ℚ :=
  1 - single_prop_cover_over samples line

lemma countP_line_trichotomy (l : List ℚ) (line : ℚ) :
    l.countP (fun s => decide (line < s)) + l.countP (fun s => decide (s < line))
      + l.countP (fun s => decide (s = line)) = l.length := by
  induction l with
  | nil => simp
  | cons a t ih =>
    simp only [List.countP_cons, List.length_cons, decide_eq_true_eq]
    rcases lt_trichotomy line a with h | h | h
    · have h1 : ¬ a < line := not_lt.2 (le_of_lt h)
      have h2 : ¬ a = line := ne_of_gt h
      rw [if_pos h, if_neg h1, if_neg h2]
      omega
    · have h1 : ¬ line < a := by rw [h]; exact lt_irrefl a
      have h2 : ¬ a < line := by rw [h]; exact lt_irrefl a
      have h3 : a = line := h.symm
      rw [if_neg h1, if_neg h2, if_pos h3]
      omega
    · have h1 : ¬ line < a := not_lt.2 (le_of_lt h)
      have h2 : ¬ a = line := ne_of_lt h
      rw [if_neg h1, if_pos h, if_neg h2]
      omega

lemma countP_ge_split (l : List ℚ) (line : ℚ) :
    l.countP (fun s => decide (line ≤ s)) =
      l.countP (fun s => decide (line < s)) +
        l.countP (fun s => decide (s = line)) := by
  induction l with
  | nil => simp
  | cons a t ih =>
    simp only [List.countP_cons, decide_eq_true_eq]
    rcases lt_trichotomy line a with h | h | h
    · rw [if_pos (le_of_lt h), if_pos h, if_neg (ne_of_gt h)]
      omega
    · have h2 : ¬ line < a := by rw [h]; exact lt_irrefl a
      rw [if_pos (le_of_eq h), if_neg h2, if_pos h.symm]
      omega
    · rw [if_neg (not_le.2 h), if_neg (not_lt.2 (le_of_lt h)),
        if_neg (ne_of_lt h)]
      omega

/-- C2 counterexample: on the sample set `[5]` with line `5`,
`simulate_single_prop` reports an over cover probability of `1` — the
sample equal to the line counts as a win for over, not as a loss — while
the strict rule of `simulate_prop_ev` reports `0`. -/
theorem C2_counterexample_equal_sample :
    single_prop_cover_over [(5 : ℚ)] 5 = 1 ∧
    prop_p_cover [(5 : ℚ)] 5 "over" = 0 := by
  constructor <;>
    norm_num [single_prop_cover_over, single_prop_over_hits, prop_p_cover,
      prop_cover_count, List.countP_cons]

/-- C2 (amended): in `simulate_prop_ev` both directions count strictly, so
a sample equal to the line is a loss for both sides — the over fraction,
the under fraction and the equal-to-line fraction sum to `1`; in
`simulate_single_prop` the over probability additionally absorbs the
equal-to-line fraction (`sample >= line`), and only its derived under
probability agrees with the strict rule. -/
theorem C2_cover_boundary_rule (samples : List ℚ) (line : ℚ)
    (h : 0 < samples.length) :
    prop_p_cover samples line "over" + prop_p_cover samples line "under" +
        (samples.countP (fun s => decide (s = line)) : ℚ) /
          (samples.length : ℚ) = 1 ∧
    single_prop_cover_over samples line =
      prop_p_cover samples line "over" +
        (samples.countP (fun s => decide (s = line)) : ℚ) /
          (samples.length : ℚ) ∧
    single_prop_cover_under samples line = prop_p_cover samples line "under" := by
  have hn0 : samples.length ≠ 0 := h.ne'
  have hn : (samples.length : ℚ) ≠ 0 := Nat.cast_ne_zero.2 hn0
  have hover : prop_p_cover samples line "over" =
      (samples.countP (fun s => decide (line < s)) : ℚ) / (samples.length : ℚ) := by
    rw [prop_p_cover, if_neg hn0, prop_cover_count, if_pos rfl]
  have hunder : prop_p_cover samples line "under" =
      (samples.countP (fun s => decide (s < line)) : ℚ) / (samples.length : ℚ) := by
    rw [prop_p_cover, if_neg hn0, prop_cover_count,
      if_neg (by decide : ¬ ("under" : String) = "over")]
  have hsum : (samples.countP (fun s => decide (line < s)) : ℚ) +
      (samples.countP (fun s => decide (s < line)) : ℚ) +
      (samples.countP (fun s => decide (s = line)) : ℚ) = (samples.length : ℚ) := by
    exact_mod_cast countP_line_trichotomy samples line
  have hge : (samples.countP (fun s => decide (line ≤ s)) : ℚ) =
      (samples.countP (fun s => decide (line < s)) : ℚ) +
      (samples.countP (fun s => decide (s = line)) : ℚ) := by
    exact_mod_cast countP_ge_split samples line
  refine ⟨?_, ?_, ?_⟩
  · rw [hover, hunder, div_add_div_same, div_add_div_same]
    rw [div_eq_one_iff_eq hn]
    exact hsum
  · rw [single_prop_cover_over, single_prop_over_hits, hover, div_add_div_same,
      hge]
  · rw [single_prop_cover_under, single_prop_cover_over, single_prop_over_hits,
      hunder, hge]
    field_simp
    linarith [hsum]

/-- Witness for C2 on the samples `[4, 5, 6]` with line `5`. -/
theorem C2_cover_boundary_witness :
    single_prop_cover_over [(4 : ℚ), 5, 6] 5 =
      prop_p_cover [(4 : ℚ), 5, 6] 5 "over" +
        (([(4 : ℚ), 5, 6].countP (fun s => decide (s = 5))) : ℚ) /
          (([(4 : ℚ), 5, 6] : List ℚ).length : ℚ) :=
  (C2_cover_boundary_rule [(4 : ℚ), 5, 6] 5 (by norm_num)).2.1

/-! ## Outcome simulators

`random.gauss(mu, sigma)` is modeled through an injectable random source,
as the spec requires for testability: a stream `z : ℕ → ℚ` of standard
normal draws (the i-th Gaussian draw is `mu + sigma * z i`) and, for the
per-iteration scenario choice of `engine/simulation.py`, a stream
`u : ℕ → ℚ` of uniform `[0,1)` draws. -/

/-- A simulation result: the sample list and its reported mean. -/
structure SpreadSim where
  samples : List ℚ
  avg_diff : ℚ

/-- Scenario mean chosen by one iteration of `simulate_spread_50000`
(src/wun-engine/engine/simulation.py lines 73-85): `r < 0.5` baseline
`mu`, `0.5 ≤ r < 0.75` home-bad `mu - delta`, else home-good
`mu + delta` — the 50/25/25 mixture weights on a uniform draw `r`. -/
def spread_scenario_mean (mu_diff delta r : ℚ) : ℚ :=
  if r < 1/2 then mu_diff
  else if r < 3/4 then mu_diff - delta
  else mu_diff + delta

/-- `simulate_spread_50000` (src/wun-engine/engine/simulation.py lines
52-88): n samples (source default 50000), each drawn from the scenario
mean selected by the uniform draw, scenario delta
`max(3.0, abs(mu_diff) * 0.5)`; reports the arithmetic mean
`sum(samples) / n`. -/
def simulate_spread_50000 (mu_diff sigma_diff : ℚ) (n : ℕ) (u z : ℕ → ℚ) :
    SpreadSim :=
  let delta := max 3 (|mu_diff| * (1/2))
  let samples := (List.range n).map
    (fun i => spread_scenario_mean mu_diff delta (u i) + sigma_diff * z i)
  { samples := samples, avg_diff := samples.sum / (n : ℚ) }

/-- `simulate_spread_50000` (src/engine/sim_core.py lines 7-42): fixed
`n = 50000`, split deterministically into `int(0.5*n)` baseline draws,
`int(0.25*n)` home-bad draws at `mu - 3.0`, and the remaining home-good
draws at `mu + 3.0`, consuming the normal stream in that order; reports
`sum(diffs) / len(diffs)`. -/
def sim_core_simulate_spread_50000 (mu_diff sigma_diff : ℚ) (z : ℕ → ℚ) :
    SpreadSim :=
  let n : ℕ := 50000
  let n_base : ℕ := n / 2
  let n_home_bad : ℕ := n / 4
  let n_home_good : ℕ := n - n_base - n_home_bad
  let diffs :=
    (List.range n_base).map (fun i => mu_diff + sigma_diff * z i)
    ++ (List.range n_home_bad).map
        (fun i => (mu_diff - 3) + sigma_diff * z (n_base + i))
    ++ (List.range n_home_good).map
        (fun i => (mu_diff + 3) + sigma_diff * z (n_base + n_home_bad + i))
  { samples := diffs, avg_diff := diffs.sum / (diffs.length : ℚ) }

lemma getD_range_map (f : ℕ → ℚ) (m i : ℕ) (h : i < m) :
    ((List.range m).map f).getD i 0 = f i := by
  have hl : i < ((List.range m).map f).length := by simpa using h
  rw [List.getD_eq_getElem _ _ hl, List.getElem_map, List.getElem_range]

/-- C4: the engine simulator returns exactly `n` samples, sample `i`
being a `Normal(scenario mean, sigma)` draw whose scenario is picked by
the uniform draw `u i` with weights 50% baseline / 25% at `mu - delta` /
25% at `mu + delta`, and reports the arithmetic mean of the sample set;
the `sim_core.py` variant realizes the same mixture with exact
deterministic counts 25000/12500/12500 out of 50000. -/
theorem C4_mixture_of_scenarios (mu_diff sigma_diff : ℚ) (n : ℕ) (u z : ℕ → ℚ) :
    ((simulate_spread_50000 mu_diff sigma_diff n u z).samples.length = n ∧
     (∀ i, i < n →
        (simulate_spread_50000 mu_diff sigma_diff n u z).samples.getD i 0 =
          spread_scenario_mean mu_diff (max 3 (|mu_diff| * (1/2))) (u i)
            + sigma_diff * z i) ∧
     (simulate_spread_50000 mu_diff sigma_diff n u z).avg_diff =
       (simulate_spread_50000 mu_diff sigma_diff n u z).samples.sum / (n : ℚ)) ∧
    ((sim_core_simulate_spread_50000 mu_diff sigma_diff z).samples.length =
        50000 ∧
     (∀ i, i < 25000 →
        (sim_core_simulate_spread_50000 mu_diff sigma_diff z).samples.getD i 0 =
          mu_diff + sigma_diff * z i) ∧
     (∀ i, i < 12500 →
        (sim_core_simulate_spread_50000 mu_diff sigma_diff z).samples.getD
            (25000 + i) 0 = (mu_diff - 3) + sigma_diff * z (25000 + i)) ∧
     (∀ i, i < 12500 →
        (sim_core_simulate_spread_50000 mu_diff sigma_diff z).samples.getD
            (37500 + i) 0 = (mu_diff + 3) + sigma_diff * z (37500 + i)) ∧
     (sim_core_simulate_spread_50000 mu_diff sigma_diff z).avg_diff =
       (sim_core_simulate_spread_50000 mu_diff sigma_diff z).samples.sum /
         (50000 : ℚ)) := by
  have hlen : (sim_core_simulate_spread_50000 mu_diff sigma_diff z).samples.length
      = 50000 := by
    simp only [sim_core_simulate_spread_50000, List.length_append,
      List.length_map, List.length_range]
  have hsamples : (sim_core_simulate_spread_50000 mu_diff sigma_diff z).samples =
      (List.range 25000).map (fun i => mu_diff + sigma_diff * z i)
      ++ ((List.range 12500).map
            (fun i => (mu_diff - 3) + sigma_diff * z (25000 + i))
        ++ (List.range 12500).map
            (fun i => (mu_diff + 3) + sigma_diff * z (37500 + i))) := by
    norm_num [sim_core_simulate_spread_50000, List.append_assoc]
  have hlenA : ((List.range 25000).map
      (fun i => mu_diff + sigma_diff * z i)).length = 25000 := by simp
  have hlenB : ((List.range 12500).map
      (fun i => (mu_diff - 3) + sigma_diff * z (25000 + i))).length = 12500 := by
    simp
  refine ⟨⟨?_, ?_, ?_⟩, hlen, ?_, ?_, ?_, ?_⟩
  · simp only [simulate_spread_50000, List.length_map, List.length_range]
  · intro i hi
    simp only [simulate_spread_50000]
    exact getD_range_map _ n i hi
  · rfl
  · intro i hi
    rw [hsamples, List.getD_append _ _ _ _ (by rw [hlenA]; omega)]
    exact getD_range_map _ _ i hi
  · intro i hi
    rw [hsamples, List.getD_append_right _ _ _ _ (by rw [hlenA]; omega), hlenA]
    have he : 25000 + i - 25000 = i := by omega
    rw [he, List.getD_append _ _ _ _ (by rw [hlenB]; omega)]
    exact getD_range_map _ _ i hi
  · intro i hi
    rw [hsamples, List.getD_append_right _ _ _ _ (by rw [hlenA]; omega), hlenA]
    have he : 37500 + i - 25000 = 12500 + i := by omega
    rw [he, List.getD_append_right _ _ _ _ (by rw [hlenB]; omega), hlenB]
    have he2 : 12500 + i - 12500 = i := by omega
    rw [he2]
    exact getD_range_map _ _ i hi
  · simp only [sim_core_simulate_spread_50000, List.length_append,
      List.length_map, List.length_range]
    norm_num

/-- Witness for C4 at `n = 1`, zero streams, `mu = 0`, `sigma = 1`. -/
theorem C4_mixture_witness :
    (simulate_spread_50000 0 1 1 (fun _ => 0) (fun _ => 0)).samples.getD 0 0 =
      spread_scenario_mean 0 (max 3 (|(0 : ℚ)| * (1/2))) 0 + 1 * 0 :=
  ((C4_mixture_of_scenarios 0 1 1 (fun _ => 0) (fun _ => 0)).1.2.1) 0
    (by norm_num)

/-! ## Deduplicator, from `src/wun-engine/engine/tiles.py`

`dedupe_markets_one_per_team_per_game` (lines 38-67) groups markets by
the 7-tuple `(sport, game_id, type, team, side, stat_type, direction)`
(`dict.setdefault` keeps groups in first-appearance order and appends
within a group), then keeps
`sorted(group, key=lambda g: american_to_implied(g.get("odds") or 0),
reverse=True)[0]` from each group.  Python's sort is stable, so that
element is the first member attaining the maximal implied probability;
the fold `pickBest` below, which replaces the running best only on a
strictly larger key, computes exactly that element. -/

/-- A market dict as consumed by the deduplicator: every `m.get(...)`
field may be absent. -/
structure PyMarket where
  sport : Option String
  game_id : Option String
  mtype : Option String
  team : Option String
  side : Option String
  stat_type : Option String
  direction : Option String
  odds : Option ℚ
deriving DecidableEq

/-- The identity-group key: sport, game, market type, team, side, stat
type, direction — excluding bookmaker and price. -/
structure MarketKey where
  sport : Option String
  game_id : Option String
  mtype : Option String
  team : Option String
  side : Option String
  stat_type : Option String
  direction : Option String
deriving DecidableEq

def marketKey (m : PyMarket) : MarketKey :=
  ⟨m.sport, m.game_id, m.mtype, m.team, m.side, m.stat_type, m.direction⟩

/-- The sort key `american_to_implied(g.get("odds") or 0)`. -/
def impliedOfMarket (m : PyMarket) : ℚ :=
  american_to_implied (m.odds.getD 0)

/-- `groups.setdefault(key, []).append(m)` on an insertion-ordered dict. -/
def groupInsert (k : MarketKey) (m : PyMarket) :
    List (MarketKey × PyMarket × List PyMarket) →
      List (MarketKey × PyMarket × List PyMarket)
  | [] => [(k, m, [])]
  | (k0, h, t) :: rest =>
    if k = k0 then (k0, h, t ++ [m]) :: rest
    else (k0, h, t) :: groupInsert k m rest

/-- The grouping loop of the deduplicator; each group is stored as its
first member plus the rest, so groups are never empty. -/
def buildGroups (markets : List PyMarket) :
    List (MarketKey × PyMarket × List PyMarket) :=
  markets.foldl (fun acc m => groupInsert (marketKey m) m acc) []

/-- `sorted(group, key=implied, reverse=True)[0]`: the first member of
the group attaining the maximal implied probability. -/
def pickBest (best : PyMarket) : List PyMarket → PyMarket
  | [] => best
  | m :: rest =>
    if impliedOfMarket best < impliedOfMarket m then pickBest m rest
    else pickBest best rest

/-- `dedupe_markets_one_per_team_per_game` (lines 38-67). -/
def dedupe_markets_one_per_team_per_game (markets : List PyMarket) :
    List PyMarket :=
  (buildGroups markets).map (fun g => pickBest g.2.1 g.2.2)

/-- The members of the (first) group stored under key `k`. -/
def groupMembers (k : MarketKey) :
    List (MarketKey × PyMarket × List PyMarket) → List PyMarket
  | [] => []
  | (k0, h, t) :: rest => if k = k0 then h :: t else groupMembers k rest

/-- The keys of the stored groups, in insertion order. -/
def groupKeys (gs : List (MarketKey × PyMarket × List PyMarket)) :
    List MarketKey :=
  gs.map (fun g => g.1)

lemma groupMembers_insert (k k0 : MarketKey) (m : PyMarket)
    (gs : List (MarketKey × PyMarket × List PyMarket)) :
    groupMembers k (groupInsert k0 m gs) =
      if k = k0 then groupMembers k gs ++ [m] else groupMembers k gs := by
  induction gs with
  | nil =>
    by_cases h : k = k0 <;> simp [groupInsert, groupMembers, h]
  | cons hd rest ih =>
    obtain ⟨k1, h1, t1⟩ := hd
    by_cases hk : k0 = k1
    · simp only [groupInsert, if_pos hk]
      by_cases hkk : k = k1
      · have hk0 : k = k0 := hkk.trans hk.symm
        simp only [groupMembers, if_pos hkk, if_pos hk0]
        simp
      · have hk0 : ¬ k = k0 := fun h => hkk (h.trans hk)
        simp only [groupMembers, if_neg hkk, if_neg hk0]
    · simp only [groupInsert, if_neg hk]
      by_cases hkk : k = k1
      · have hk0 : ¬ k = k0 := fun h => hk (h.symm.trans hkk)
        simp only [groupMembers, if_pos hkk, if_neg hk0]
      · simp only [groupMembers, if_neg hkk]
        exact ih

lemma groupMembers_foldl (k : MarketKey) (ms : List PyMarket)
    (acc : List (MarketKey × PyMarket × List PyMarket)) :
    groupMembers k (ms.foldl (fun a m => groupInsert (marketKey m) m a) acc) =
      groupMembers k acc ++
        ms.filter (fun m => decide (k = marketKey m)) := by
  induction ms generalizing acc with
  | nil => simp
  | cons m rest ih =>
    simp only [List.foldl_cons, List.filter_cons]
    rw [ih, groupMembers_insert]
    by_cases hm : k = marketKey m
    · have hb : decide (k = marketKey m) = true := decide_eq_true hm
      rw [if_pos hm, if_pos hb]
      simp
    · have hb : ¬ decide (k = marketKey m) = true := by simpa using hm
      rw [if_neg hm, if_neg hb]

lemma groupMembers_buildGroups (k : MarketKey) (ms : List PyMarket) :
    groupMembers k (buildGroups ms) =
      ms.filter (fun m => decide (k = marketKey m)) := by
  rw [buildGroups, groupMembers_foldl]
  simp [groupMembers]

lemma groupKeys_insert (k : MarketKey) (m : PyMarket)
    (gs : List (MarketKey × PyMarket × List PyMarket)) :
    groupKeys (groupInsert k m gs) =
      if k ∈ groupKeys gs then groupKeys gs else groupKeys gs ++ [k] := by
  induction gs with
  | nil => simp [groupInsert, groupKeys]
  | cons hd rest ih =>
    obtain ⟨k1, h1, t1⟩ := hd
    by_cases hk : k = k1
    · simp [groupInsert, groupKeys, hk]
    · simp only [groupInsert, if_neg hk, groupKeys, List.map_cons] at *
      rw [ih]
      by_cases hmem : k ∈ rest.map (fun g => g.1)
      · simp [hmem, hk]
      · simp [hmem, hk]

lemma groupKeys_foldl_nodup (ms : List PyMarket)
    (acc : List (MarketKey × PyMarket × List PyMarket))
    (h : (groupKeys acc).Nodup) :
    (groupKeys
      (ms.foldl (fun a m => groupInsert (marketKey m) m a) acc)).Nodup := by
  induction ms generalizing acc with
  | nil => simpa
  | cons m rest ih =>
    simp only [List.foldl_cons]
    apply ih
    rw [groupKeys_insert]
    by_cases hmem : marketKey m ∈ groupKeys acc
    · rwa [if_pos hmem]
    · rw [if_neg hmem]
      simp [List.nodup_append, h, hmem]

lemma mem_groupKeys_iff (k : MarketKey)
    (gs : List (MarketKey × PyMarket × List PyMarket)) :
    k ∈ groupKeys gs ↔ groupMembers k gs ≠ [] := by
  induction gs with
  | nil => simp [groupKeys, groupMembers]
  | cons hd rest ih =>
    obtain ⟨k1, h1, t1⟩ := hd
    have hkeys : groupKeys ((k1, h1, t1) :: rest) = k1 :: groupKeys rest := rfl
    rw [hkeys, List.mem_cons]
    by_cases hk : k = k1
    · simp [groupMembers, hk]
    · simp only [groupMembers, if_neg hk]
      simp [hk, ih]

lemma entry_members (k : MarketKey) (h : PyMarket) (t : List PyMarket)
    (gs : List (MarketKey × PyMarket × List PyMarket))
    (hmem : (k, h, t) ∈ gs) (hnd : (groupKeys gs).Nodup) :
    groupMembers k gs = h :: t := by
  induction gs with
  | nil => cases hmem
  | cons hd rest ih =>
    obtain ⟨k1, h1, t1⟩ := hd
    simp only [groupKeys, List.map_cons, List.nodup_cons] at hnd
    rcases List.mem_cons.1 hmem with heq | hmem2
    · rw [Prod.mk.injEq] at heq
      obtain ⟨hk, hht⟩ := heq
      rw [Prod.mk.injEq] at hht
      obtain ⟨hh, ht⟩ := hht
      subst hk
      subst hh
      subst ht
      simp [groupMembers]
    · have hk : ¬ k = k1 := by
        intro hkk
        exact hnd.1 (hkk ▸ List.mem_map.2 ⟨(k, h, t), hmem2, rfl⟩)
      simp only [groupMembers, if_neg hk]
      exact ih hmem2 hnd.2

lemma pickBest_mem_cons (b : PyMarket) (l : List PyMarket) :
    pickBest b l ∈ b :: l := by
  induction l generalizing b with
  | nil => simp [pickBest]
  | cons m rest ih =>
    simp only [pickBest]
    by_cases hc : impliedOfMarket b < impliedOfMarket m
    · rw [if_pos hc]
      rcases List.mem_cons.1 (ih m) with h | h
      · rw [h]; exact List.mem_cons_of_mem b (List.mem_cons_self m rest)
      · exact List.mem_cons_of_mem b (List.mem_cons_of_mem m h)
    · rw [if_neg hc]
      rcases List.mem_cons.1 (ih b) with h | h
      · rw [h]; exact List.mem_cons_self b (m :: rest)
      · exact List.mem_cons_of_mem b (List.mem_cons_of_mem m h)

lemma pickBest_maximal (b : PyMarket) (l : List PyMarket) :
    impliedOfMarket b ≤ impliedOfMarket (pickBest b l) ∧
      ∀ x ∈ l, impliedOfMarket x ≤ impliedOfMarket (pickBest b l) := by
  induction l generalizing b with
  | nil => simp [pickBest]
  | cons m rest ih =>
    simp only [pickBest]
    by_cases hc : impliedOfMarket b < impliedOfMarket m
    · rw [if_pos hc]
      obtain ⟨h1, h2⟩ := ih m
      refine ⟨le_trans (le_of_lt hc) h1, ?_⟩
      intro x hx
      rcases List.mem_cons.1 hx with rfl | hx2
      · exact h1
      · exact h2 x hx2
    · rw [if_neg hc]
      obtain ⟨h1, h2⟩ := ih b
      refine ⟨h1, ?_⟩
      intro x hx
      rcases List.mem_cons.1 hx with rfl | hx2
      · exact le_trans (not_lt.1 hc) h1
      · exact h2 x hx2

lemma dedupe_map_keys (ms : List PyMarket) :
    (dedupe_markets_one_per_team_per_game ms).map marketKey =
      groupKeys (buildGroups ms) := by
  rw [dedupe_markets_one_per_team_per_game, List.map_map, groupKeys]
  apply List.map_congr_left
  intro g hg
  obtain ⟨k, h, t⟩ := g
  have hmembers : groupMembers k (buildGroups ms) = h :: t :=
    entry_members k h t (buildGroups ms) hg
      (groupKeys_foldl_nodup ms [] (by simp [groupKeys]))
  have hfilter : h :: t = ms.filter (fun m => decide (k = marketKey m)) := by
    rw [← hmembers, groupMembers_buildGroups]
  have hbest : pickBest h t ∈ h :: t := pickBest_mem_cons h t
  rw [hfilter] at hbest
  have hkx : k = marketKey (pickBest h t) := by
    simpa using List.of_mem_filter hbest
  exact hkx.symm

/-- C1 (amended): the deduplicator keeps exactly one representative per
occupied identity group (the group key being sport, game, market type,
team, side, stat type, direction), and the representative is a member of
its group with the *highest implied probability* — i.e. the lowest
decimal odds, the worst price for the bettor, not the best. -/
theorem C1_dedupe_one_per_group (ms : List PyMarket) :
    ((dedupe_markets_one_per_team_per_game ms).map marketKey).Nodup ∧
    (∀ k : MarketKey,
      k ∈ (dedupe_markets_one_per_team_per_game ms).map marketKey ↔
        k ∈ ms.map marketKey) ∧
    (∀ p ∈ dedupe_markets_one_per_team_per_game ms,
      p ∈ ms ∧
      ∀ m2 ∈ ms, marketKey m2 = marketKey p →
        impliedOfMarket m2 ≤ impliedOfMarket p) := by
  have hnodup := groupKeys_foldl_nodup ms [] (by simp [groupKeys])
  refine ⟨?_, ?_, ?_⟩
  · rw [dedupe_map_keys]
    exact hnodup
  · intro k
    rw [dedupe_map_keys, mem_groupKeys_iff, groupMembers_buildGroups]
    constructor
    · intro hne
      rcases List.exists_mem_of_ne_nil _ hne with ⟨x, hx⟩
      have hxm := List.mem_of_mem_filter hx
      have hxp : k = marketKey x := by simpa using List.of_mem_filter hx
      exact List.mem_map.2 ⟨x, hxm, hxp.symm⟩
    · intro hk
      rcases List.mem_map.1 hk with ⟨x, hxm, hxk⟩
      intro hnil
      have : x ∈ ms.filter (fun m => decide (k = marketKey m)) :=
        List.mem_filter.2 ⟨hxm, by simpa using hxk.symm⟩
      rw [hnil] at this
      cases this
  · intro p hp
    rcases List.mem_map.1 hp with ⟨g, hg, hpg⟩
    obtain ⟨k, h, t⟩ := g
    have hmembers : groupMembers k (buildGroups ms) = h :: t :=
      entry_members k h t (buildGroups ms) hg hnodup
    have hfilter : h :: t = ms.filter (fun m => decide (k = marketKey m)) := by
      rw [← hmembers, groupMembers_buildGroups]
    have hbest : p ∈ h :: t := by
      rw [← hpg]
      exact pickBest_mem_cons h t
    have hpk : k = marketKey p := by
      have := List.of_mem_filter (hfilter ▸ hbest)
      simpa using this
    constructor
    · exact List.mem_of_mem_filter (hfilter ▸ hbest)
    · intro m2 hm2 hk2
      have hm2f : m2 ∈ h :: t := by
        rw [hfilter]
        exact List.mem_filter.2 ⟨hm2, by simp [← hpk, hk2]⟩
      obtain ⟨h1, h2⟩ := pickBest_maximal h t
      rcases List.mem_cons.1 hm2f with rfl | hm2t
      · exact hpg ▸ h1
      · exact hpg ▸ h2 m2 hm2t

/-- The +150 market of the C1 counterexample (decimal odds 2.5, implied
probability 0.4). -/
def cexPlusMarket : PyMarket :=
  { sport := some "NFL", game_id := some "G1", mtype := some "spread",
    team := some "Chiefs", side := none, stat_type := none,
    direction := none, odds := some 150 }

/-- The -200 market of the C1 counterexample (decimal odds 1.5, implied
probability 2/3), in the same identity group. -/
def cexMinusMarket : PyMarket :=
  { sport := some "NFL", game_id := some "G1", mtype := some "spread",
    team := some "Chiefs", side := none, stat_type := none,
    direction := none, odds := some (-200) }

/-- C1 counterexample: from two same-group markets priced +150 and -200,
the deduplicator keeps the -200 one, whose decimal odds are strictly
*lower* — the claim says the representative has the highest decimal
odds. -/
theorem C1_counterexample_keeps_worst_price :
    dedupe_markets_one_per_team_per_game [cexPlusMarket, cexMinusMarket] =
      [cexMinusMarket] ∧
    pricing_american_to_decimal (-200) < pricing_american_to_decimal 150 := by
  constructor
  · norm_num [dedupe_markets_one_per_team_per_game, buildGroups, groupInsert,
      pickBest, marketKey, impliedOfMarket, american_to_implied,
      cexPlusMarket, cexMinusMarket]
  · norm_num [pricing_american_to_decimal]

/-- Witness for C1: instantiated on the two concrete counterexample
markets, the kept representative dominates its group mate in implied
probability. -/
theorem C1_dedupe_witness :
    impliedOfMarket cexPlusMarket ≤ impliedOfMarket cexMinusMarket := by
  have h := C1_dedupe_one_per_group [cexPlusMarket, cexMinusMarket]
  have heq : dedupe_markets_one_per_team_per_game
      [cexPlusMarket, cexMinusMarket] = [cexMinusMarket] := by
    norm_num [dedupe_markets_one_per_team_per_game, buildGroups, groupInsert,
      pickBest, marketKey, impliedOfMarket, american_to_implied,
      cexPlusMarket, cexMinusMarket]
  have hd : cexMinusMarket ∈
      dedupe_markets_one_per_team_per_game [cexPlusMarket, cexMinusMarket] := by
    rw [heq]
    exact List.mem_singleton.2 rfl
  exact (h.2.2 cexMinusMarket hd).2 cexPlusMarket (by simp) (by decide)

/-! ## Normalizers

Two normalizers are embedded: `normalize_event_player_props`
(src/wun-engine/normalizer.py lines 89-160), which never skips an outcome
and defaults a missing `point`/`price` to `0.0` through Python's falsy
`or`; and the outcome loop of `normalize_odds_api_events`
(src/normalizer.py lines 114-184), which skips outcomes with a missing
line or blank player description and drops buckets with no price on
either side.  The composite `id` strings and raw payload echoes are
pass-through data not touched by any claim and are omitted from the
records. -/

/-- Python falsy-or on an optional string (`a or b`; `""` is falsy). -/
def pyStrOr (a : Option String) (b : String) : String :=
  match a with
  | none => b
  | some s => if s = "" then b else s

/-- Python falsy-or on an optional number (`a or b`; `0` is falsy). -/
def pyNumOr (a : Option ℚ) (b : ℚ) : ℚ :=
  match a with
  | none => b
  | some x => if x = 0 then b else x

/-- `needle in hay` on character lists. -/
def subChars (needle : List Char) : List Char → Bool
  | [] => needle.isEmpty
  | c :: rest => needle.isPrefixOf (c :: rest) || subChars needle rest

/-- Python's substring test `needle in hay`. -/
def strContainsSub (hay needle : String) : Bool :=
  subChars needle.toList hay.toList

/-- A raw provider outcome dict; every field may be absent. -/
structure RawOutcome where
  name : Option String
  description : Option String
  player : Option String
  participant : Option String
  point : Option ℚ
  price : Option ℚ
  odds : Option ℚ
  team : Option String
deriving DecidableEq

/-- A raw market dict: `key` and `outcomes`. -/
structure RawMarket where
  key : Option String
  outcomes : List RawOutcome

/-- A raw bookmaker dict: `key` and `markets`. -/
structure RawBookmaker where
  key : Option String
  markets : List RawMarket

/-- `YES_NO_MARKETS` (src/config.py lines 103-105). -/
def YES_NO_MARKETS : List String := ["player_anytime_td"]

/-- `_normalize_side` (src/wun-engine/normalizer.py lines 52-64):
substring match on the lowercased description/name, defaulting to
`"Over"` when no directional token is found. -/
def normalize_side (market_key : String) (o : RawOutcome) : String :=
  if market_key ∈ YES_NO_MARKETS then
    if strContainsSub (pyStrOr o.description (pyStrOr o.name "")).toLower "no"
      then "No" else "Yes"
  else if strContainsSub (pyStrOr o.description (pyStrOr o.name "")).toLower
      "under" then "Under"
  else if strContainsSub (pyStrOr o.description (pyStrOr o.name "")).toLower
      "over" then "Over"
  else "Over"

/-- The canonical prop record of `src/wun-engine/normalizer.py`,
restricted to the computed fields. -/
structure NormalizedProp where
  sport : String
  league : String
  event_id : String
  player_name : String
  team : Option String
  market_key : String
  line : ℚ
  side : String
  bookmaker : String
  decimal_odds : ℚ
deriving DecidableEq

/-- The per-outcome body of `normalize_event_player_props` (lines
118-158): `line = float(outcome.get("point") or 0.0)`,
`price = float(outcome.get("price") or outcome.get("odds") or 0.0)`;
the outcome always yields a record. -/
def buildProp (sport_label league_key event_id bm_key market_key : String)
    (o : RawOutcome) : NormalizedProp :=
  { sport := sport_label.toUpper
    league := league_key
    event_id := event_id
    player_name := pyStrOr o.description (pyStrOr o.name "")
    team := o.team
    market_key := market_key
    line := pyNumOr o.point 0
    side := normalize_side market_key o
    bookmaker := bm_key
    decimal_odds := pyNumOr o.price (pyNumOr o.odds 0) }

/-- The guard `allowed_markets and market_key not in allowed_markets`
(line 115); an empty allowed list is falsy in Python, disabling the
filter. -/
def marketSkipped (allowed_markets : List String) (market_key : String) :
    Bool :=
  decide (allowed_markets ≠ []) && decide (market_key ∉ allowed_markets)

/-- The per-market body of `normalize_event_player_props`. -/
def marketStep (s l eid bmk : String) (allowed : List String)
    (props2 : List NormalizedProp) (m : RawMarket) : List NormalizedProp :=
  if marketSkipped allowed (pyStrOr m.key "") then props2
  else props2 ++ m.outcomes.map (buildProp s l eid bmk (pyStrOr m.key ""))

/-- The per-bookmaker body of `normalize_event_player_props`. -/
def bookmakerStep (s l eid : String) (allowed : List String)
    (props : List NormalizedProp) (bm : RawBookmaker) :
    List NormalizedProp :=
  bm.markets.foldl (marketStep s l eid (pyStrOr bm.key "unknown_book") allowed)
    props

/-- `normalize_event_player_props` (src/wun-engine/normalizer.py lines
89-160). -/
def normalize_event_player_props (s l : String) (eid : Option String)
    (bms : List RawBookmaker) (allowed : List String) :
    List NormalizedProp :=
  bms.foldl (bookmakerStep s l (pyStrOr eid "") allowed) []

/-- The number of outcomes inside non-filtered markets. -/
def expectedPropCount (allowed : List String) (bms : List RawBookmaker) :
    ℕ :=
  (bms.map (fun bm =>
    (bm.markets.map (fun m =>
      if marketSkipped allowed (pyStrOr m.key "") then 0
      else m.outcomes.length)).sum)).sum

/-- `_american_to_prob` (src/normalizer.py lines 46-54); `odds = 0`
falls into the non-positive branch and yields probability `0`. -/
def api_american_to_prob (odds : Option ℚ) : ℚ :=
  match odds with
  | none => 0
  | some o => if 0 < o then 100 / (o + 100) else (-o) / ((-o) + 100)

/-- A `(player, line)` bucket of `normalize_odds_api_events`. -/
structure PropBucket where
  player : String
  line : ℚ
  over : Option ℚ
  under : Option ℚ
deriving DecidableEq

/-- `bucket["over"] = o.get("price")` / `bucket["under"] = ...` guarded
by the substring tests on the lowercased outcome name (lines 140-143). -/
def updateBucket (nm : String) (price : Option ℚ) (b : PropBucket) :
    PropBucket :=
  if strContainsSub nm "over" then { b with over := price }
  else if strContainsSub nm "under" then { b with under := price }
  else b

/-- `buckets.setdefault(key, fresh)` followed by the in-place update, on
an insertion-ordered dict. -/
def bucketUpdate (key : String × ℚ) (f : PropBucket → PropBucket)
    (fresh : PropBucket) :
    List ((String × ℚ) × PropBucket) → List ((String × ℚ) × PropBucket)
  | [] => [(key, f fresh)]
  | (k0, b) :: rest =>
    if key = k0 then (k0, f b) :: rest
    else (k0, b) :: bucketUpdate key f fresh rest

/-- One iteration of the outcome loop of `normalize_odds_api_events`
(lines 116-143): outcomes with a missing line or a blank player
description are skipped before touching the buckets. -/
def bucketStep (bs : List ((String × ℚ) × PropBucket)) (o : RawOutcome) :
    List ((String × ℚ) × PropBucket) :=
  match o.point with
  | none => bs
  | some line =>
    if (pyStrOr o.description
          (pyStrOr o.player (pyStrOr o.participant ""))).trim = "" then bs
    else
      bucketUpdate
        ((pyStrOr o.description
            (pyStrOr o.player (pyStrOr o.participant ""))).trim, line)
        (updateBucket (pyStrOr o.name "").toLower o.price)
        ⟨(pyStrOr o.description
            (pyStrOr o.player (pyStrOr o.participant ""))).trim,
          line, none, none⟩ bs

/-- The flat prop record of `src/normalizer.py`, restricted to the
computed fields. -/
structure ApiProp where
  player_name : String
  line : ℚ
  over_price : Option ℚ
  under_price : Option ℚ
  best_side : String
  best_side_prob : ℚ
deriving DecidableEq

/-- The bucket-to-record body (lines 145-184): buckets with no price on
either side are skipped; `best_side` is the side with the larger implied
probability, `over` winning ties. -/
def bucketEmit (acc : List ApiProp) (kb : (String × ℚ) × PropBucket) :
    List ApiProp :=
  if kb.2.over = none ∧ kb.2.under = none then acc
  else
    acc ++ [{ player_name := kb.2.player
              line := kb.2.line
              over_price := kb.2.over
              under_price := kb.2.under
              best_side :=
                if (if kb.2.under ≠ none then api_american_to_prob kb.2.under
                      else 0) ≤
                    (if kb.2.over ≠ none then api_american_to_prob kb.2.over
                      else 0)
                  then "over" else "under"
              best_side_prob :=
                if (if kb.2.under ≠ none then api_american_to_prob kb.2.under
                      else 0) ≤
                    (if kb.2.over ≠ none then api_american_to_prob kb.2.over
                      else 0)
                  then (if kb.2.over ≠ none then api_american_to_prob kb.2.over
                          else 0)
                  else (if kb.2.under ≠ none then
                          api_american_to_prob kb.2.under else 0) }]

/-- The bucket-emission loop of `normalize_odds_api_events`. -/
def bucketToProps (bs : List ((String × ℚ) × PropBucket)) : List ApiProp :=
  bs.foldl bucketEmit []

/-- The outcome-level pipeline of `normalize_odds_api_events` for one
market's outcome list. -/
def normalize_outcomes_to_props (outcomes : List RawOutcome) :
    List ApiProp :=
  bucketToProps (outcomes.foldl bucketStep [])

lemma marketStep_length (s l eid bmk : String) (allowed : List String)
    (acc : List NormalizedProp) (m : RawMarket) :
    (marketStep s l eid bmk allowed acc m).length =
      acc.length + (if marketSkipped allowed (pyStrOr m.key "") then 0
        else m.outcomes.length) := by
  rw [marketStep]
  by_cases hs : marketSkipped allowed (pyStrOr m.key "") = true
  · rw [if_pos hs, if_pos hs]
    omega
  · rw [if_neg hs, if_neg hs]
    simp

lemma length_marketStep_foldl (s l eid bmk : String) (allowed : List String)
    (markets : List RawMarket) (acc : List NormalizedProp) :
    (markets.foldl (marketStep s l eid bmk allowed) acc).length =
      acc.length + (markets.map (fun m =>
        if marketSkipped allowed (pyStrOr m.key "") then 0
        else m.outcomes.length)).sum := by
  induction markets generalizing acc with
  | nil => simp
  | cons m rest ih =>
    simp only [List.foldl_cons, List.map_cons, List.sum_cons]
    rw [ih, marketStep_length]
    omega

lemma bookmakerStep_length (s l eid : String) (allowed : List String)
    (acc : List NormalizedProp) (bm : RawBookmaker) :
    (bookmakerStep s l eid allowed acc bm).length =
      acc.length + (bm.markets.map (fun m =>
        if marketSkipped allowed (pyStrOr m.key "") then 0
        else m.outcomes.length)).sum := by
  rw [bookmakerStep]
  exact length_marketStep_foldl s l eid (pyStrOr bm.key "unknown_book")
    allowed bm.markets acc

lemma length_bms_foldl (s l eid : String) (allowed : List String)
    (bms : List RawBookmaker) (acc : List NormalizedProp) :
    (bms.foldl (bookmakerStep s l eid allowed) acc).length =
      acc.length + expectedPropCount allowed bms := by
  induction bms generalizing acc with
  | nil => simp [expectedPropCount]
  | cons bm rest ih =>
    simp only [List.foldl_cons]
    rw [ih, bookmakerStep_length]
    have hexp : expectedPropCount allowed (bm :: rest) =
        (bm.markets.map (fun m =>
          if marketSkipped allowed (pyStrOr m.key "") then 0
          else m.outcomes.length)).sum + expectedPropCount allowed rest := by
      simp [expectedPropCount]
    omega

lemma mem_bucketFold (bs : List ((String × ℚ) × PropBucket))
    (acc : List ApiProp) (p : ApiProp)
    (hp : p ∈ bs.foldl bucketEmit acc) :
    p ∈ acc ∨ (p.over_price ≠ none ∨ p.under_price ≠ none) := by
  induction bs generalizing acc with
  | nil => exact Or.inl hp
  | cons kb rest ih =>
    simp only [List.foldl_cons] at hp
    rcases ih _ hp with hacc | hgood
    · rw [bucketEmit] at hacc
      by_cases hc : kb.2.over = none ∧ kb.2.under = none
      · rw [if_pos hc] at hacc
        exact Or.inl hacc
      · rw [if_neg hc] at hacc
        rcases List.mem_append.1 hacc with h1 | h1
        · exact Or.inl h1
        · right
          have hpe := List.mem_singleton.1 h1
          subst hpe
          simpa using not_and_or.1 hc
    · exact Or.inr hgood

/-- C9 counterexample: an outcome with no price and no line is *not*
skipped by `normalize_event_player_props` — it yields exactly one record,
with line `0.0` and decimal odds `0.0`. -/
def cexBareOutcome : RawOutcome :=
  { name := some "Wun Player", description := none, player := none,
    participant := none, point := none, price := none, odds := none,
    team := none }

/-- C9 counterexample theorem: the claim says an outcome with missing
price or line produces no record; `normalize_event_player_props`
produces one, defaulting both to `0.0`. -/
theorem C9_counterexample_missing_not_skipped :
    (normalize_event_player_props "nba" "basketball_nba" (some "E1")
      [⟨some "draftkings", [⟨some "player_points", [cexBareOutcome]⟩]⟩]
      []).length = 1 ∧
    (normalize_event_player_props "nba" "basketball_nba" (some "E1")
      [⟨some "draftkings", [⟨some "player_points", [cexBareOutcome]⟩]⟩]
      []).map (fun p => (p.line, p.decimal_odds)) = [(0, 0)] := by
  constructor <;>
    simp [normalize_event_player_props, bookmakerStep, marketStep,
      marketSkipped, pyStrOr, pyNumOr, buildProp, cexBareOutcome]

/-- C9 (amended): `normalize_odds_api_events` skips outcomes with a
missing line or blank player description and emits only buckets holding a
price on at least one side, while `normalize_event_player_props` skips
nothing — it emits one record per outcome of every allowed market,
defaulting a missing line or price to `0.0`; both are total functions
(absence is `none`/default, never an error). -/
theorem C9_missing_field_handling (s l : String) (eid : Option String)
    (bms : List RawBookmaker) (allowed : List String) (o : RawOutcome)
    (outs : List RawOutcome) (bs : List ((String × ℚ) × PropBucket))
    (bmk mk : String) :
    ((o.point = none ∨
        (pyStrOr o.description
          (pyStrOr o.player (pyStrOr o.participant ""))).trim = "") →
      bucketStep bs o = bs) ∧
    (∀ p ∈ normalize_outcomes_to_props outs,
      p.over_price ≠ none ∨ p.under_price ≠ none) ∧
    (normalize_event_player_props s l eid bms allowed).length =
      expectedPropCount allowed bms ∧
    (o.point = none → (buildProp s l (pyStrOr eid "") bmk mk o).line = 0) ∧
    ((o.price = none ∧ o.odds = none) →
      (buildProp s l (pyStrOr eid "") bmk mk o).decimal_odds = 0) := by
  refine ⟨?_, ?_, ?_, ?_, ?_⟩
  · intro h
    rcases h with hp | hp
    · simp [bucketStep, hp]
    · cases hpt : o.point with
      | none => simp [bucketStep, hpt]
      | some line => simp [bucketStep, hpt, hp]
  · intro p hp
    rcases mem_bucketFold (outs.foldl bucketStep []) [] p hp with h | h
    · cases h
    · exact h
  · rw [normalize_event_player_props, length_bms_foldl]
    simp
  · intro h
    simp [buildProp, pyNumOr, h]
  · intro h
    simp [buildProp, pyNumOr, h.1, h.2]

/-- Witness for C9: the bare outcome (no line, no price) is skipped by
the odds-api bucket loop, and its event-player-props record defaults the
line to `0`. -/
theorem C9_missing_field_witness :
    bucketStep [] cexBareOutcome = [] ∧
    (buildProp "nba" "basketball_nba" (pyStrOr (some "E1") "") "draftkings"
      "player_points" cexBareOutcome).line = 0 := by
  have h := C9_missing_field_handling "nba" "basketball_nba" (some "E1")
    [] [] cexBareOutcome [] [] "draftkings" "player_points"
  exact ⟨h.1 (Or.inl rfl), h.2.2.2.1 rfl⟩

/-- Witness for C10 at `o = -110`. -/
theorem C10_witness :
    straight_fallback_ev (-110) = 0 ∧
    assign_tier (straight_fallback_ev (-110)) (9/10) "h2h" = "Standard Plays" := by
  have h := C10_fallback_ev_zero (-110) (by norm_num) (9/10) "h2h"
  exact ⟨h.2.1, h.2.2⟩

end WunEngine
